import Mathlib

/-!
# Verification of the bulk price caching and refresh subsystem

A shallow embedding of `app/services/bulk_price_service.py` (class
`BulkPriceService`) together with the scheduler entrypoint
`fetch_and_cache_bulk_prices_task` from `app/celery.py`.

Modelling conventions:
* Python `dict` values are association lists `List (Sym × Price)`;
  `d[k] = v` is `dictInsert` (overwrite in place or append), `k in d` /
  `d.get(k)` is `dictGet`, `d.update(e)` is `dictUpdate`.
* Prices and timestamps are rationals (`ℚ`); the source uses floats but the
  properties at stake are positivity, comparisons and equality of literals.
* The Redis store is a record `Store` holding the three keys the service
  uses (`bulk_prices:all`, `bulk_fetch:timestamp`, `bulk_fetch:lock`) plus a
  `reachable` flag.  `reachable = false` models both an unconnectable client
  (`get_redis` returning `None`) and a store operation raising: in every
  method of the source the two paths produce the same outcome
  (`True`/`False`/`None`/no-op as the respective `except` arm dictates).
* External interactions of the live-fetch adapters are inputs: a `LiveEnv`
  fixes whether the Alpha Vantage key is configured, the per-symbol provider
  outcome, and whether the guarded `try` block of `fetch_bulk_prices_safe`
  raises an unexpected exception.
* Side effects that leave the subsystem are recorded in an `Effect` trace:
  one `liveFetch` per outbound provider HTTP call, one `enqueueRefresh` per
  fire-and-forget background-refresh trigger.
-/

namespace StockWise

abbrev Sym := String
abbrev Price := ℚ

/-- Outbound side effects of the service, recorded as a trace. -/
inductive Effect where
  | liveFetch (sym : Sym)
  | enqueueRefresh
deriving DecidableEq

/-- Number of live provider calls in an effect trace. -/
def countLiveFetch (l : List Effect) : ℕ :=
  l.countP (fun e => match e with | .liveFetch _ => true | _ => false)

/-! ## Python dict operations on association lists -/

/-- Assignment `d[k] = v`: overwrite the existing entry for `k`, else append. -/
def dictInsert (d : List (Sym × Price)) (k : Sym) (v : Price) :
    List (Sym × Price) :=
  if d.any (fun q => q.1 == k) then
    d.map (fun q => if q.1 == k then (k, v) else q)
  else d ++ [(k, v)]

/-- Lookup `d.get(k)`: first (unique) entry for `k`. -/
def dictGet (d : List (Sym × Price)) (k : Sym) : Option Price :=
  (d.find? (fun q => q.1 == k)).map Prod.snd

/-- The keys of a dict, in insertion order. -/
def dictKeys (d : List (Sym × Price)) : List Sym := d.map Prod.fst

/-- Update `d.update(e)`: insert every entry of `e` into `d`. -/
def dictUpdate (d e : List (Sym × Price)) : List (Sym × Price) :=
  e.foldl (fun acc q => dictInsert acc q.1 q.2) d

/-- Comprehension `{k: f(k) for k in ks}` built exactly as a Python loop/comprehension:
repeated assignment into an initially empty dict. -/
def pyDict (ks : List Sym) (f : Sym → Price) : List (Sym × Price) :=
  ks.foldl (fun acc k => dictInsert acc k (f k)) []

/-! ## Static data of `BulkPriceService.__init__` -/

/-- Constant `self.cache_ttl = 86400` (seconds). -/
def cache_ttl : ℤ := 86400

/-- Constant `self.bulk_fetch_interval = 3600` (seconds). -/
def bulk_fetch_interval : ℤ := 3600

/-- Set `self.all_assets`: the tracked symbol set, in source order. -/
def all_assets : List Sym :=
  ["AAPL", "MSFT", "GOOGL", "GOOG", "AMZN", "NVDA", "TSLA", "META",
   "BRK.B", "V", "JNJ", "WMT", "JPM", "PG", "UNH", "HD", "MA", "DIS",
   "ADBE", "BAC", "CRM", "NFLX", "XOM", "CVX", "AMD", "PFE", "TMO",
   "COST", "ABBV", "ACN", "MRK", "LLY", "PEP", "AVGO", "TXN", "ABT",
   "ORCL", "NKE", "DHR", "VZ", "COP", "MCD", "BMY", "WFC", "CSCO",
   "HON", "UPS", "IBM", "GS", "CAT", "MMM", "BA", "AXP", "TRV",
   "SPY", "QQQ", "IWM", "VTI", "VOO", "VEA", "VWO", "GLD", "SLV",
   "TLT", "HYG", "LQD", "EEM", "FXI", "EWJ", "EWZ", "RSX", "EWU",
   "IEFA", "IEMG", "ITOT", "IXUS", "VTV", "VUG", "VYM", "VXUS",
   "XLK", "XLF", "XLE", "XLV", "XLI", "XLP", "XLY", "XLU", "XLRE",
   "XLB", "XME", "XRT", "XHB", "XBI", "XOP", "XAR", "XTN", "XTL",
   "BTC-USD", "ETH-USD", "ADA-USD", "SOL-USD", "DOT-USD", "LINK-USD",
   "TSM", "ASML", "SAP", "TM", "NVO", "AZN", "BABA", "NVS", "ROCHE",
   "GME", "AMC", "PLTR", "RIVN", "LCID", "COIN", "SQ", "SHOP", "ROKU"]

/-- Table `self.fallback_prices`: the static fallback price table. -/
def fallback_prices : List (Sym × Price) :=
  [("AAPL", 175.50), ("MSFT", 420.25), ("GOOGL", 142.80), ("AMZN", 155.30),
   ("NVDA", 875.40), ("TSLA", 245.60), ("META", 485.20), ("DIS", 112.85),
   ("JPM", 175.25), ("V", 285.90), ("BRK.B", 445.75), ("JNJ", 162.45),
   ("WMT", 165.80), ("PG", 145.60), ("UNH", 520.30), ("HD", 385.75),
   ("MA", 475.40), ("ADBE", 565.20), ("BAC", 42.75), ("CRM", 285.90),
   ("NFLX", 485.60), ("XOM", 115.40), ("CVX", 165.30), ("AMD", 185.75),
   ("PFE", 28.90), ("SPY", 485.20), ("QQQ", 395.80), ("VTI", 245.30),
   ("VOO", 445.60), ("IWM", 195.40), ("GLD", 185.70), ("SLV", 22.45),
   ("TLT", 89.60), ("BTC-USD", 42500.00), ("ETH-USD", 2650.00)]

/-- Lookup `self.fallback_prices.get(sym, 100.0)`: the fallback/default price used
throughout the service. -/
def fallbackGet (s : Sym) : Price := (dictGet fallback_prices s).getD 100

/-- A symbol is "uppercase" when it contains no lowercase letter
(digits, dots and hyphens allowed, as in `BRK.B` and `BTC-USD`). -/
def isUpperSym (s : Sym) : Bool := s.data.all (fun c => !c.isLower)

/-! ## The shared store (Redis keys used by the service) -/

/-- The snapshot blob cached under `bulk_prices:all`:
`{"prices": ..., "timestamp": ..., "count": ...}`. -/
structure Snapshot where
  prices : List (Sym × Price)
  timestamp : ℤ
  count : ℕ
deriving DecidableEq

/-- The shared store state: the snapshot key, the last-fetch timestamp key
and the lock key, plus whether the store can be consulted at all. -/
structure Store where
  reachable : Bool
  snapshot : Option Snapshot
  lastFetch : Option ℤ
  lock : Bool
deriving DecidableEq

/-- Method `should_fetch_bulk_data`: no store → `True`; lock held → `False`;
never fetched → `True`; else fetch iff the interval has elapsed. -/
def should_fetch_bulk_data (s : Store) (now : ℤ) : Bool :=
  if !s.reachable then true
  else if s.lock then false
  else
    match s.lastFetch with
    | none => true
    | some t => decide (bulk_fetch_interval < now - t)

/-- Method `acquire_fetch_lock`: `SET bulk_fetch:lock locked EX 600 NX`.  With no
consultable store the method returns `True` and proceeds without a lock. -/
def acquire_fetch_lock (s : Store) : Bool × Store :=
  if !s.reachable then (true, s)
  else if s.lock then (false, s)
  else (true, { s with lock := true })

/-- Method `release_fetch_lock`: delete the lock key (no-op without a store). -/
def release_fetch_lock (s : Store) : Store :=
  if s.reachable then { s with lock := false } else s

/-- Method `get_cached_prices`: read the snapshot blob; `None` on no store, no
blob, or an expired blob (age above `cache_ttl`). -/
def get_cached_prices (s : Store) (now : ℤ) : Option (List (Sym × Price)) :=
  if !s.reachable then none
  else
    match s.snapshot with
    | none => none
    | some snap =>
        if decide (cache_ttl < now - snap.timestamp) then none
        else some snap.prices

/-- Python truthiness of the result of `get_cached_prices` (`if cached_prices:`):
an empty dict is falsy. -/
def truthyPrices : Option (List (Sym × Price)) → Bool
  | some l => !l.isEmpty
  | none => false

/-- Method `cache_bulk_prices`: write the snapshot blob and the last-fetch
timestamp; returns `False` when the store is unreachable. -/
def cache_bulk_prices (prices : List (Sym × Price)) (s : Store) (now : ℤ) :
    Bool × Store :=
  if !s.reachable then (false, s)
  else
    (true,
     { s with
       snapshot := some ⟨prices, now, prices.length⟩,
       lastFetch := some now })

/-! ## Live fetch adapters -/

/-- Outcome of one Alpha Vantage `GLOBAL_QUOTE` HTTP request for a symbol,
as discriminated by `_get_alpha_vantage_price_safe`. -/
inductive AVOutcome where
  /-- Case `response.status_code != 200`. -/
  | httpError (code : ℕ)
  /-- Case where `response.json()` raised. -/
  | badJson
  /-- Case `"Note" in data`: the provider's rate-limit response. -/
  | rateLimitNote
  /-- Case `"Error Message" in data`. -/
  | errorMessage
  /-- Case `"Global Quote" not in data`. -/
  | noGlobalQuote
  /-- Case where `"05. price"` is missing, empty, or the literal string `"0"`. -/
  | priceMissing
  /-- Case where `float(price_str)` raised `ValueError`. -/
  | priceNotNumeric
  /-- A numeric price string parsed to `p` (any sign). -/
  | price (p : ℚ)
  /-- Request-level exception or timeout. -/
  | exn

/-- Method `_get_alpha_vantage_price_safe`: `None` on every error path; the parsed
price only when it is strictly positive. -/
def get_alpha_vantage_price_safe (o : AVOutcome) : Option Price :=
  match o with
  | .price p => if 0 < p then some p else none
  | _ => none

/-- Method `_fetch_alpha_vantage_limited`: one guarded request per symbol
(12-second pacing elided), keeping a price only when
`price and price > 0`; one `liveFetch` effect per attempted symbol. -/
def fetch_alpha_vantage_limited (env : Sym → AVOutcome) (assets : List Sym) :
    List (Sym × Price) × List Effect :=
  (assets.foldl
    (fun acc a =>
      match get_alpha_vantage_price_safe (env a) with
      | some p => if 0 < p then dictInsert acc a p else acc
      | none => acc)
    [],
   assets.map Effect.liveFetch)

/-- Outcome of one yfinance `Ticker(...).history(period="1d")` call, as
discriminated by `_fetch_yfinance_chunk_safe`. -/
inductive YFOutcome where
  /-- Case where `hist.empty` holds or `"Close" not in hist.columns`. -/
  | noData
  /-- Case where `pd.notna(latest_close)` is false (the float `NaN`, which `ℚ` cannot
  carry, is represented by this constructor). -/
  | nan
  /-- A latest close equal to `p` (any sign). -/
  | close (p : ℚ)
  /-- Per-ticker exception. -/
  | exn

/-- The per-ticker filter of `_fetch_yfinance_chunk_safe`:
`pd.notna(latest_close) and latest_close > 0`. -/
def yfTickerPrice : YFOutcome → Option Price
  | .close p => if 0 < p then some p else none
  | _ => none

/-- Method `_fetch_yfinance_chunk_safe`: gather the valid closes, skipping every
failing ticker. -/
def fetch_yfinance_chunk_safe (env : Sym → YFOutcome) (tickers : List Sym) :
    List (Sym × Price) :=
  tickers.foldl
    (fun acc t =>
      match yfTickerPrice (env t) with
      | some p => dictInsert acc t p
      | none => acc)
    []

/-- List `priority_assets` of `_fetch_limited_live_prices`. -/
def priority_assets : List Sym :=
  ["AAPL", "MSFT", "GOOGL", "AMZN", "NVDA", "TSLA", "META", "SPY", "QQQ",
   "VTI"]

/-- Subset `fetch_assets = [a for a in priority_assets if a in all_assets][:10]`. -/
def fetch_assets : List Sym :=
  (priority_assets.filter (fun a => all_assets.contains a)).take 10

/-- The external circumstances of one refresh cycle. -/
structure LiveEnv where
  /-- Whether `settings.ALPHA_VANTAGE_API_KEY` is configured (truthy). -/
  avKey : Bool
  /-- Per-symbol Alpha Vantage outcome. -/
  avOutcome : Sym → AVOutcome
  /-- The `try` block of `fetch_bulk_prices_safe` raises an unexpected
  exception (anything not already absorbed by the inner handlers). -/
  liveRaises : Bool

/-- Method `_fetch_limited_live_prices`: Alpha Vantage over the priority subset
when a key is configured, then fill every remaining priority symbol with
its fallback value. -/
def fetch_limited_live_prices (env : LiveEnv) :
    List (Sym × Price) × List Effect :=
  if fetch_assets.isEmpty then ([], [])
  else
    let avr :=
      if env.avKey then fetch_alpha_vantage_limited env.avOutcome fetch_assets
      else ([], [])
    let live := if avr.1.isEmpty then [] else avr.1
    let filled := fetch_assets.foldl
      (fun acc a =>
        if (dictGet acc a).isSome then acc else acc ++ [(a, fallbackGet a)])
      live
    (filled, avr.2)

/-! ## Orchestrator -/

/-- Baseline `{asset: self.fallback_prices.get(asset, 100.0) for asset in
self.all_assets}`: the baseline (and total-failure) snapshot.  The
comprehension ranges over the distinct elements of the tracked set, so it
yields exactly one entry per tracked symbol. -/
def fallbackAllAssets : List (Sym × Price) :=
  all_assets.map (fun a => (a, fallbackGet a))

/-- Method `fetch_bulk_prices_safe`: the guarded refresh body.  Returns the price
dict, the store after the call, and the effect trace. -/
def fetch_bulk_prices_safe (env : LiveEnv) (s : Store) (now : ℤ) :
    List (Sym × Price) × Store × List Effect :=
  if should_fetch_bulk_data s now = false
      ∧ truthyPrices (get_cached_prices s now) = true then
    ((get_cached_prices s now).getD [], s, [])
  else
    let acq := acquire_fetch_lock s
    if acq.1 = false then
      if truthyPrices (get_cached_prices acq.2 now) = true then
        ((get_cached_prices acq.2 now).getD [], acq.2, [])
      else (fallbackAllAssets, acq.2, [])
    else
      if env.liveRaises then
        (fallbackAllAssets, release_fetch_lock acq.2, [])
      else
        let lv := fetch_limited_live_prices env
        let prices :=
          if lv.1.isEmpty then fallbackAllAssets
          else dictUpdate fallbackAllAssets lv.1
        (prices, release_fetch_lock acq.2, lv.2)

/-- The scheduler entrypoint `fetch_and_cache_bulk_prices_task` from
`app/celery.py`: fetch via `fetch_bulk_prices_safe`, then persist via
`cache_bulk_prices`. -/
def refresh (env : LiveEnv) (s : Store) (now : ℤ) :
    List (Sym × Price) × Store × List Effect :=
  let r := fetch_bulk_prices_safe env s now
  let c := cache_bulk_prices r.1 r.2.1 now
  (r.1, c.2, r.2.2)

/-- Method `get_prices`: answer purely from the cached snapshot and the fallback
table; on a cache miss, enqueue a background refresh (fire-and-forget) and
answer from fallbacks. -/
def get_prices (s : Store) (now : ℤ) (tickers : List Sym) :
    List (Sym × Price) × List Effect :=
  let cached := get_cached_prices s now
  if truthyPrices cached = true then
    (pyDict tickers
      (fun t => (dictGet (cached.getD []) t.toUpper).getD
        (fallbackGet t.toUpper)),
     [])
  else
    (pyDict tickers (fun t => fallbackGet t.toUpper), [Effect.enqueueRefresh])

/-- The effect trace of a sequence of `get_prices` calls, each with its own
store state, time and ticker list. -/
def get_prices_calls (calls : List (Store × ℤ × List Sym)) : List Effect :=
  calls.foldl (fun acc c => acc ++ (get_prices c.1 c.2.1 c.2.2).2) []

/-- The methods defined on class `BulkPriceService` (every `def` in the
class body of `app/services/bulk_price_service.py`). -/
def bulkPriceServiceMethods : List String :=
  ["__init__", "get_redis", "should_fetch_bulk_data", "acquire_fetch_lock",
   "release_fetch_lock", "fetch_bulk_prices_safe",
   "_fetch_limited_live_prices", "_fetch_yfinance_limited",
   "_fetch_yfinance_chunk_safe", "_fetch_alpha_vantage_limited",
   "_get_alpha_vantage_price_safe", "_fetch_yfinance_batch",
   "_fetch_yfinance_chunk", "_fetch_alpha_vantage_batch",
   "_get_alpha_vantage_price", "cache_bulk_prices", "get_cached_prices",
   "get_prices", "_trigger_background_refresh", "get_single_price",
   "get_multiple_prices", "warm_cache"]

/-- Method `warm_cache`: its body first resolves the attribute
`self.fetch_bulk_prices`.  When the class does not define that attribute
the lookup raises `AttributeError`, the surrounding `except` swallows it
and the method returns `False` with the store untouched.  The guard's
positive branch is dead (`"fetch_bulk_prices"` is not among the class's
methods); its value is irrelevant and chosen arbitrarily. -/
def warm_cache (s : Store) : Bool × Store :=
  if bulkPriceServiceMethods.contains "fetch_bulk_prices" then (true, s)
  else (false, s)

/-! ## Lemmas about the dict operations -/

theorem dictKeys_dictInsert (d : List (Sym × Price)) (k : Sym) (v : Price) :
    dictKeys (dictInsert d k v) =
      if d.any (fun q => q.1 == k) then dictKeys d else dictKeys d ++ [k] := by
  unfold dictInsert
  split
  · simp only [dictKeys, List.map_map]
    apply List.map_congr_left
    intro q _
    by_cases h : q.1 = k
    · simp [h]
    · simp [h]
  · simp [dictKeys]

theorem mem_dictInsert {d : List (Sym × Price)} {k : Sym} {v : Price}
    {q : Sym × Price} (h : q ∈ dictInsert d k v) : q = (k, v) ∨ q ∈ d := by
  unfold dictInsert at h
  split at h
  · rcases List.mem_map.1 h with ⟨r, hr, hq⟩
    by_cases hk : r.1 = k
    · simp [hk] at hq; exact Or.inl hq.symm
    · simp [hk] at hq; exact Or.inr (hq ▸ hr)
  · rcases List.mem_append.1 h with h' | h'
    · exact Or.inr h'
    · simp at h'; exact Or.inl h'

theorem mem_dictKeys_dictInsert {d : List (Sym × Price)} {k : Sym} {v : Price}
    {a : Sym} : a ∈ dictKeys (dictInsert d k v) ↔ a = k ∨ a ∈ dictKeys d := by
  rw [dictKeys_dictInsert]
  split
  · rename_i h
    constructor
    · exact Or.inr
    · rintro (rfl | h')
      · simp only [List.any_eq_true, beq_iff_eq] at h
        rcases h with ⟨q, hq, hk⟩
        exact List.mem_map.2 ⟨q, hq, hk⟩
      · exact h'
  · simp [or_comm]

theorem nodup_dictKeys_dictInsert {d : List (Sym × Price)} {k : Sym}
    {v : Price} (h : (dictKeys d).Nodup) :
    (dictKeys (dictInsert d k v)).Nodup := by
  rw [dictKeys_dictInsert]
  split
  · exact h
  · rename_i hany
    simp only [List.any_eq_true, beq_iff_eq, not_exists] at hany
    push_neg at hany
    refine List.Nodup.append h (List.nodup_singleton k) ?_
    intro a ha hb
    simp at hb
    subst hb
    rcases List.mem_map.1 ha with ⟨q, hq, hk⟩
    exact hany q hq hk

theorem dictInsert_ne_nil (d : List (Sym × Price)) (k : Sym) (v : Price) :
    dictInsert d k v ≠ [] := by
  unfold dictInsert
  split
  · rename_i h
    intro hnil
    rcases List.any_eq_true.1 h with ⟨q, hq, _⟩
    rw [List.map_eq_nil_iff] at hnil
    simp [hnil] at hq
  · simp

theorem dictGet_mem {d : List (Sym × Price)} {k : Sym} {v : Price}
    (h : dictGet d k = some v) : (k, v) ∈ d := by
  unfold dictGet at h
  rcases Option.map_eq_some'.1 h with ⟨q, hq, hv⟩
  have hm := List.mem_of_find?_eq_some hq
  have hp := List.find?_some hq
  simp only [beq_iff_eq] at hp
  have : q = (k, v) := by
    cases q
    simp_all
  exact this ▸ hm

theorem dictGet_isSome_iff {d : List (Sym × Price)} {k : Sym} :
    (dictGet d k).isSome = true ↔ k ∈ dictKeys d := by
  unfold dictGet dictKeys
  rw [Option.isSome_map']
  rw [List.find?_isSome]
  constructor
  · rintro ⟨q, hq, hk⟩
    simp only [beq_iff_eq] at hk
    exact List.mem_map.2 ⟨q, hq, hk⟩
  · intro hm
    rcases List.mem_map.1 hm with ⟨q, hq, hk⟩
    exact ⟨q, hq, by simp [hk]⟩

theorem dictGet_map_mk (ks : List Sym) (f : Sym → Price) (k : Sym) :
    dictGet (ks.map fun a => (a, f a)) k =
      if k ∈ ks then some (f k) else none := by
  induction ks with
  | nil => simp [dictGet]
  | cons a t ih =>
    by_cases h : a = k
    · subst h
      simp [dictGet, List.find?]
    · have h' : ((a, f a).1 == k) = false := by simp [h]
      simp only [List.map_cons, dictGet, List.find?_cons, h']
      simp only [dictGet] at ih
      rw [ih]
      have hka : ¬k = a := fun hh => h hh.symm
      by_cases hm : k ∈ t
      · simp [List.mem_cons, hm]
      · simp [List.mem_cons, hm, hka]

theorem dictGet_of_nodup_mem {d : List (Sym × Price)} {k : Sym} {v : Price}
    (hn : (dictKeys d).Nodup) (hm : (k, v) ∈ d) : dictGet d k = some v := by
  induction d with
  | nil => cases hm
  | cons q t ih =>
    rcases List.mem_cons.1 hm with rfl | hm'
    · simp [dictGet, List.find?]
    · have hn' : (dictKeys t).Nodup := (List.nodup_cons.1 hn).2
      have hq : q.1 ≠ k := by
        intro he
        have : k ∈ dictKeys t := List.mem_map.2 ⟨(k, v), hm', rfl⟩
        exact (List.nodup_cons.1 hn).1 (he ▸ this)
      have hb : (q.1 == k) = false := by simp [hq]
      simp only [dictGet, List.find?_cons, hb]
      exact ih hn' hm'

theorem mem_foldl_dictInsert (f : Sym → Price) (ks : List Sym)
    (acc : List (Sym × Price)) {q : Sym × Price}
    (h : q ∈ ks.foldl (fun a k => dictInsert a k (f k)) acc) :
    q ∈ acc ∨ (q.1 ∈ ks ∧ q.2 = f q.1) := by
  induction ks generalizing acc with
  | nil => exact Or.inl h
  | cons a t ih =>
    rcases ih (dictInsert acc a (f a)) h with h' | h'
    · rcases mem_dictInsert h' with h'' | h''
      · subst h''; exact Or.inr ⟨by simp, rfl⟩
      · exact Or.inl h''
    · exact Or.inr ⟨List.mem_cons_of_mem a h'.1, h'.2⟩

theorem mem_dictKeys_foldl (f : Sym → Price) (ks : List Sym)
    (acc : List (Sym × Price)) (a : Sym) :
    a ∈ dictKeys (ks.foldl (fun a k => dictInsert a k (f k)) acc) ↔
      a ∈ dictKeys acc ∨ a ∈ ks := by
  induction ks generalizing acc with
  | nil => simp
  | cons b t ih =>
    simp only [List.foldl_cons]
    rw [ih]
    rw [mem_dictKeys_dictInsert]
    constructor
    · rintro ((rfl | h) | h)
      · exact Or.inr (by simp)
      · exact Or.inl h
      · exact Or.inr (List.mem_cons_of_mem b h)
    · rintro (h | h)
      · exact Or.inl (Or.inr h)
      · rcases List.mem_cons.1 h with rfl | h'
        · exact Or.inl (Or.inl rfl)
        · exact Or.inr h'

theorem nodup_dictKeys_foldl (f : Sym → Price) (ks : List Sym)
    (acc : List (Sym × Price)) (h : (dictKeys acc).Nodup) :
    (dictKeys (ks.foldl (fun a k => dictInsert a k (f k)) acc)).Nodup := by
  induction ks generalizing acc with
  | nil => exact h
  | cons b t ih => exact ih _ (nodup_dictKeys_dictInsert h)

theorem mem_pyDict (f : Sym → Price) (ks : List Sym) {q : Sym × Price}
    (h : q ∈ pyDict ks f) : q.1 ∈ ks ∧ q.2 = f q.1 := by
  rcases mem_foldl_dictInsert f ks [] h with h' | h'
  · cases h'
  · exact h'

theorem mem_dictKeys_pyDict (f : Sym → Price) (ks : List Sym) (a : Sym) :
    a ∈ dictKeys (pyDict ks f) ↔ a ∈ ks := by
  unfold pyDict
  rw [mem_dictKeys_foldl]
  simp [dictKeys]

theorem nodup_dictKeys_pyDict (f : Sym → Price) (ks : List Sym) :
    (dictKeys (pyDict ks f)).Nodup :=
  nodup_dictKeys_foldl f ks [] (by simp [dictKeys])

theorem pyDict_ne_nil (f : Sym → Price) {ks : List Sym} (h : ks ≠ []) :
    pyDict ks f ≠ [] := by
  intro hnil
  rcases ks with _ | ⟨a, t⟩
  · exact h rfl
  · have : a ∈ dictKeys (pyDict (a :: t) f) :=
      (mem_dictKeys_pyDict f (a :: t) a).2 (by simp)
    rw [hnil] at this
    simp [dictKeys] at this

theorem mem_dictUpdate {d e : List (Sym × Price)} {q : Sym × Price}
    (h : q ∈ dictUpdate d e) : q ∈ d ∨ q ∈ e := by
  unfold dictUpdate at h
  induction e generalizing d with
  | nil => exact Or.inl h
  | cons b t ih =>
    simp only [List.foldl_cons] at h
    rcases ih h with h' | h'
    · rcases mem_dictInsert h' with h'' | h''
      · exact Or.inr (by simp [h''])
      · exact Or.inl h''
    · exact Or.inr (List.mem_cons_of_mem b h')

theorem mem_dictKeys_dictUpdate {d e : List (Sym × Price)} {a : Sym} :
    a ∈ dictKeys (dictUpdate d e) ↔ a ∈ dictKeys d ∨ a ∈ dictKeys e := by
  unfold dictUpdate
  induction e generalizing d with
  | nil => simp [dictKeys]
  | cons b t ih =>
    simp only [List.foldl_cons]
    rw [ih]
    rw [mem_dictKeys_dictInsert]
    simp only [dictKeys, List.map_cons, List.mem_cons]
    tauto

theorem dictUpdate_ne_nil {d : List (Sym × Price)}
    (e : List (Sym × Price)) (h : d ≠ []) : dictUpdate d e ≠ [] := by
  unfold dictUpdate
  induction e generalizing d with
  | nil => exact h
  | cons b t ih => exact ih (dictInsert_ne_nil d b.1 b.2)

theorem dictInsert_self {d : List (Sym × Price)} {k : Sym} {v : Price}
    (hex : ∃ q ∈ d, q.1 = k) (hval : ∀ q ∈ d, q.1 = k → q.2 = v) :
    dictInsert d k v = d := by
  unfold dictInsert
  have hany : d.any (fun q => q.1 == k) = true := by
    rcases hex with ⟨q, hq, hk⟩
    exact List.any_eq_true.2 ⟨q, hq, by simp [hk]⟩
  rw [if_pos hany]
  have hid : ∀ q ∈ d, (if q.1 == k then (k, v) else q) = id q := by
    intro q hq
    by_cases hk : q.1 = k
    · have hv := hval q hq hk
      cases q
      simp_all
    · simp [hk]
  rw [List.map_congr_left hid, List.map_id]

theorem dictUpdate_self {d e : List (Sym × Price)}
    (h : ∀ q ∈ e, (∃ r ∈ d, r.1 = q.1) ∧ ∀ r ∈ d, r.1 = q.1 → r.2 = q.2) :
    dictUpdate d e = d := by
  unfold dictUpdate
  induction e with
  | nil => rfl
  | cons b t ih =>
    simp only [List.foldl_cons]
    have hb := h b (by simp)
    rw [dictInsert_self hb.1 hb.2]
    exact ih (fun q hq => h q (List.mem_cons_of_mem b hq))

/-! ## Lemmas about the static data -/

theorem fallback_prices_pos : ∀ q ∈ fallback_prices, (0 : ℚ) < q.2 := by
  intro q h
  fin_cases h <;> norm_num

theorem fallbackGet_pos (s : Sym) : 0 < fallbackGet s := by
  unfold fallbackGet
  cases hg : dictGet fallback_prices s with
  | none => simp
  | some v =>
    have := fallback_prices_pos _ (dictGet_mem hg)
    simpa using this

theorem all_assets_upper : ∀ a ∈ all_assets, isUpperSym a = true := by decide

theorem all_assets_ne_nil : all_assets ≠ [] := by decide

theorem fetch_assets_subset : ∀ a ∈ fetch_assets, a ∈ all_assets := by decide

theorem fallback_prices_keys_nodup : (dictKeys fallback_prices).Nodup := by
  decide

theorem mem_fallbackAllAssets {q : Sym × Price} (h : q ∈ fallbackAllAssets) :
    q.1 ∈ all_assets ∧ q.2 = fallbackGet q.1 := by
  rcases List.mem_map.1 h with ⟨a, ha, hq⟩
  subst hq
  exact ⟨ha, rfl⟩

theorem dictKeys_fallbackAllAssets : dictKeys fallbackAllAssets = all_assets := by
  unfold dictKeys fallbackAllAssets
  rw [List.map_map]
  have h1 : all_assets.map (Prod.fst ∘ fun a => (a, fallbackGet a)) =
      all_assets.map id := List.map_congr_left (fun a _ => rfl)
  rw [h1, List.map_id]

theorem dictGet_fallbackAllAssets {a : Sym} (h : a ∈ all_assets) :
    dictGet fallbackAllAssets a = some (fallbackGet a) := by
  rw [fallbackAllAssets, dictGet_map_mk, if_pos h]

theorem fallbackAllAssets_ne_nil : fallbackAllAssets ≠ [] := by
  unfold fallbackAllAssets
  simp [all_assets]

/-- The snapshot invariant of the spec: every key is an uppercase tracked
symbol and every value is strictly positive. -/
def snapshotInvariant (d : List (Sym × Price)) : Prop :=
  ∀ q ∈ d, isUpperSym q.1 = true ∧ q.1 ∈ all_assets ∧ 0 < q.2

theorem fallbackAllAssets_invariant : snapshotInvariant fallbackAllAssets := by
  intro q hq
  rcases mem_fallbackAllAssets hq with ⟨ha, hv⟩
  exact ⟨all_assets_upper _ ha, ha, hv ▸ fallbackGet_pos q.1⟩

/-! ## Lemmas about the live adapters -/

theorem av_price_pos {o : AVOutcome} {p : Price}
    (h : get_alpha_vantage_price_safe o = some p) : 0 < p := by
  cases o <;> simp [get_alpha_vantage_price_safe] at h
  rcases h with ⟨hpos, rfl⟩
  exact hpos

theorem yf_price_pos {o : YFOutcome} {p : Price}
    (h : yfTickerPrice o = some p) : 0 < p := by
  cases o <;> simp [yfTickerPrice] at h
  rcases h with ⟨hpos, rfl⟩
  exact hpos

theorem mem_av_foldl (env : Sym → AVOutcome) (assets : List Sym)
    (acc : List (Sym × Price)) {q : Sym × Price}
    (h : q ∈ assets.foldl
      (fun acc a =>
        match get_alpha_vantage_price_safe (env a) with
        | some p => if 0 < p then dictInsert acc a p else acc
        | none => acc) acc) :
    q ∈ acc ∨ (q.1 ∈ assets ∧ 0 < q.2) := by
  induction assets generalizing acc with
  | nil => exact Or.inl h
  | cons b t ih =>
    simp only [List.foldl_cons] at h
    cases hav : get_alpha_vantage_price_safe (env b) with
    | none =>
      rw [hav] at h
      rcases ih acc h with h' | h'
      · exact Or.inl h'
      · exact Or.inr ⟨List.mem_cons_of_mem b h'.1, h'.2⟩
    | some p =>
      have hp := av_price_pos hav
      simp only [hav, hp, if_true] at h
      rcases ih _ h with h' | h'
      · rcases mem_dictInsert h' with h'' | h''
        · subst h''
          exact Or.inr ⟨by simp, av_price_pos hav⟩
        · exact Or.inl h''
      · exact Or.inr ⟨List.mem_cons_of_mem b h'.1, h'.2⟩

theorem mem_av_limited (env : Sym → AVOutcome) (assets : List Sym)
    {q : Sym × Price} (h : q ∈ (fetch_alpha_vantage_limited env assets).1) :
    q.1 ∈ assets ∧ 0 < q.2 := by
  rcases mem_av_foldl env assets [] h with h' | h'
  · cases h'
  · exact h'

theorem keys_av_foldl (env : Sym → AVOutcome) (assets : List Sym)
    (acc : List (Sym × Price)) (a : Sym) :
    a ∈ dictKeys (assets.foldl
      (fun acc a =>
        match get_alpha_vantage_price_safe (env a) with
        | some p => if 0 < p then dictInsert acc a p else acc
        | none => acc) acc) ↔
    a ∈ dictKeys acc ∨
      (a ∈ assets ∧ (get_alpha_vantage_price_safe (env a)).isSome = true) := by
  induction assets generalizing acc with
  | nil => simp
  | cons b t ih =>
    simp only [List.foldl_cons]
    cases hav : get_alpha_vantage_price_safe (env b) with
    | none =>
      rw [ih]
      constructor
      · rintro (h | h)
        · exact Or.inl h
        · exact Or.inr ⟨List.mem_cons_of_mem b h.1, h.2⟩
      · rintro (h | ⟨hm, hs⟩)
        · exact Or.inl h
        · rcases List.mem_cons.1 hm with rfl | hm'
          · rw [hav] at hs; cases hs
          · exact Or.inr ⟨hm', hs⟩
    | some p =>
      have hp := av_price_pos hav
      simp only [hp, if_true]
      rw [ih]
      simp only [mem_dictKeys_dictInsert]
      constructor
      · rintro ((rfl | h) | h)
        · exact Or.inr ⟨by simp, by simp [hav]⟩
        · exact Or.inl h
        · exact Or.inr ⟨List.mem_cons_of_mem b h.1, h.2⟩
      · rintro (h | ⟨hm, hs⟩)
        · exact Or.inl (Or.inr h)
        · rcases List.mem_cons.1 hm with rfl | hm'
          · exact Or.inl (Or.inl rfl)
          · exact Or.inr ⟨hm', hs⟩

theorem keys_av_limited (env : Sym → AVOutcome) (assets : List Sym) (a : Sym) :
    a ∈ dictKeys (fetch_alpha_vantage_limited env assets).1 ↔
      a ∈ assets ∧ (get_alpha_vantage_price_safe (env a)).isSome = true := by
  unfold fetch_alpha_vantage_limited
  rw [keys_av_foldl]
  simp [dictKeys]

theorem av_limited_all_none (env : Sym → AVOutcome) (assets : List Sym)
    (h : ∀ a ∈ assets, get_alpha_vantage_price_safe (env a) = none) :
    (fetch_alpha_vantage_limited env assets).1 = [] := by
  unfold fetch_alpha_vantage_limited
  induction assets with
  | nil => rfl
  | cons b t ih =>
    simp only [List.foldl_cons]
    rw [h b (by simp)]
    exact ih (fun a ha => h a (List.mem_cons_of_mem b ha))

theorem mem_yf_foldl (env : Sym → YFOutcome) (tickers : List Sym)
    (acc : List (Sym × Price)) {q : Sym × Price}
    (h : q ∈ tickers.foldl
      (fun acc t =>
        match yfTickerPrice (env t) with
        | some p => dictInsert acc t p
        | none => acc) acc) :
    q ∈ acc ∨ (q.1 ∈ tickers ∧ 0 < q.2) := by
  induction tickers generalizing acc with
  | nil => exact Or.inl h
  | cons b t ih =>
    simp only [List.foldl_cons] at h
    cases hyf : yfTickerPrice (env b) with
    | none =>
      rw [hyf] at h
      rcases ih acc h with h' | h'
      · exact Or.inl h'
      · exact Or.inr ⟨List.mem_cons_of_mem b h'.1, h'.2⟩
    | some p =>
      rw [hyf] at h
      rcases ih _ h with h' | h'
      · rcases mem_dictInsert h' with h'' | h''
        · subst h''
          exact Or.inr ⟨by simp, yf_price_pos hyf⟩
        · exact Or.inl h''
      · exact Or.inr ⟨List.mem_cons_of_mem b h'.1, h'.2⟩

theorem mem_yf_chunk (env : Sym → YFOutcome) (tickers : List Sym)
    {q : Sym × Price} (h : q ∈ fetch_yfinance_chunk_safe env tickers) :
    q.1 ∈ tickers ∧ 0 < q.2 := by
  rcases mem_yf_foldl env tickers [] h with h' | h'
  · cases h'
  · exact h'

theorem keys_yf_foldl (env : Sym → YFOutcome) (tickers : List Sym)
    (acc : List (Sym × Price)) (a : Sym) :
    a ∈ dictKeys (tickers.foldl
      (fun acc t =>
        match yfTickerPrice (env t) with
        | some p => dictInsert acc t p
        | none => acc) acc) ↔
    a ∈ dictKeys acc ∨
      (a ∈ tickers ∧ (yfTickerPrice (env a)).isSome = true) := by
  induction tickers generalizing acc with
  | nil => simp
  | cons b t ih =>
    simp only [List.foldl_cons]
    cases hyf : yfTickerPrice (env b) with
    | none =>
      rw [ih]
      constructor
      · rintro (h | h)
        · exact Or.inl h
        · exact Or.inr ⟨List.mem_cons_of_mem b h.1, h.2⟩
      · rintro (h | ⟨hm, hs⟩)
        · exact Or.inl h
        · rcases List.mem_cons.1 hm with rfl | hm'
          · rw [hyf] at hs; cases hs
          · exact Or.inr ⟨hm', hs⟩
    | some p =>
      rw [ih]
      simp only [mem_dictKeys_dictInsert]
      constructor
      · rintro ((rfl | h) | h)
        · exact Or.inr ⟨by simp, by simp [hyf]⟩
        · exact Or.inl h
        · exact Or.inr ⟨List.mem_cons_of_mem b h.1, h.2⟩
      · rintro (h | ⟨hm, hs⟩)
        · exact Or.inl (Or.inr h)
        · rcases List.mem_cons.1 hm with rfl | hm'
          · exact Or.inl (Or.inl rfl)
          · exact Or.inr ⟨hm', hs⟩

theorem keys_yf_chunk (env : Sym → YFOutcome) (tickers : List Sym) (a : Sym) :
    a ∈ dictKeys (fetch_yfinance_chunk_safe env tickers) ↔
      a ∈ tickers ∧ (yfTickerPrice (env a)).isSome = true := by
  unfold fetch_yfinance_chunk_safe
  rw [keys_yf_foldl]
  simp [dictKeys]

theorem mem_fill_foldl (P : Sym × Price → Prop) (ks : List Sym)
    (acc : List (Sym × Price)) (hacc : ∀ q ∈ acc, P q)
    (hks : ∀ a ∈ ks, P (a, fallbackGet a)) :
    ∀ q ∈ ks.foldl
      (fun acc a =>
        if (dictGet acc a).isSome then acc else acc ++ [(a, fallbackGet a)])
      acc, P q := by
  induction ks generalizing acc with
  | nil => exact hacc
  | cons b t ih =>
    intro q hq
    simp only [List.foldl_cons] at hq
    have hks' : ∀ a ∈ t, P (a, fallbackGet a) :=
      fun a ha => hks a (List.mem_cons_of_mem b ha)
    by_cases hs : (dictGet acc b).isSome = true
    · rw [if_pos hs] at hq
      exact ih acc hacc hks' q hq
    · rw [if_neg hs] at hq
      refine ih (acc ++ [(b, fallbackGet b)]) ?_ hks' q hq
      intro r hr
      rcases List.mem_append.1 hr with hr' | hr'
      · exact hacc r hr'
      · simp at hr'
        exact hr' ▸ hks b (by simp)

theorem mem_fetch_limited (env : LiveEnv) :
    ∀ q ∈ (fetch_limited_live_prices env).1,
      q.1 ∈ fetch_assets ∧ 0 < q.2 := by
  intro q hq
  have hne : fetch_assets.isEmpty = false := by decide
  simp only [fetch_limited_live_prices, hne, Bool.false_eq_true, if_false] at hq
  refine mem_fill_foldl (fun r => r.1 ∈ fetch_assets ∧ 0 < r.2)
    fetch_assets _ ?_ (fun a ha => ⟨ha, fallbackGet_pos a⟩) q hq
  intro r hr
  by_cases hk : env.avKey = true
  · simp only [hk, if_true] at hr
    by_cases he :
        (fetch_alpha_vantage_limited env.avOutcome fetch_assets).1.isEmpty = true
    · rw [if_pos he] at hr
      cases hr
    · rw [if_neg he] at hr
      exact mem_av_limited env.avOutcome fetch_assets hr
  · simp only [hk, if_false] at hr
    simp at hr

theorem fetch_limited_fallback_only (env : LiveEnv)
    (h : env.avKey = false ∨
      ∀ a, get_alpha_vantage_price_safe (env.avOutcome a) = none) :
    ∀ q ∈ (fetch_limited_live_prices env).1,
      q.2 = fallbackGet q.1 ∧ q.1 ∈ fetch_assets := by
  intro q hq
  have hne : fetch_assets.isEmpty = false := by decide
  have hav :
      (if env.avKey then fetch_alpha_vantage_limited env.avOutcome fetch_assets
       else (([], []) : List (Sym × Price) × List Effect)).1 = [] := by
    rcases h with hk | hnone
    · rw [hk]
      rfl
    · by_cases hk : env.avKey = true
      · simp only [hk, if_true]
        exact av_limited_all_none env.avOutcome fetch_assets
          (fun a _ => hnone a)
      · simp [hk]
  simp only [fetch_limited_live_prices, hne, Bool.false_eq_true, if_false,
    hav, List.isEmpty_nil, if_true] at hq
  refine mem_fill_foldl (fun r => r.2 = fallbackGet r.1 ∧ r.1 ∈ fetch_assets)
    fetch_assets [] (by intro r hr; cases hr)
    (fun a ha => ⟨rfl, ha⟩) q hq

/-! ## Path lemmas for the refresh body -/

theorem fetch_cached_eq (env : LiveEnv) (s : Store) (now : ℤ)
    (h1 : should_fetch_bulk_data s now = false)
    (h2 : truthyPrices (get_cached_prices s now) = true) :
    fetch_bulk_prices_safe env s now =
      ((get_cached_prices s now).getD [], s, []) := by
  unfold fetch_bulk_prices_safe
  rw [if_pos ⟨h1, h2⟩]

theorem fetch_lockfail_eq (env : LiveEnv) (s : Store) (now : ℤ)
    (h1 : ¬(should_fetch_bulk_data s now = false ∧
      truthyPrices (get_cached_prices s now) = true))
    (h2 : (acquire_fetch_lock s).1 = false) :
    fetch_bulk_prices_safe env s now =
      (if truthyPrices (get_cached_prices (acquire_fetch_lock s).2 now) = true
       then (get_cached_prices (acquire_fetch_lock s).2 now).getD []
       else fallbackAllAssets,
       (acquire_fetch_lock s).2, []) := by
  unfold fetch_bulk_prices_safe
  rw [if_neg h1]
  simp only [h2, if_true]
  split <;> rfl

theorem fetch_path_eq (env : LiveEnv) (s : Store) (now : ℤ)
    (h1 : ¬(should_fetch_bulk_data s now = false ∧
      truthyPrices (get_cached_prices s now) = true))
    (h2 : (acquire_fetch_lock s).1 = true) :
    fetch_bulk_prices_safe env s now =
      (if env.liveRaises then fallbackAllAssets
       else if (fetch_limited_live_prices env).1.isEmpty then fallbackAllAssets
       else dictUpdate fallbackAllAssets (fetch_limited_live_prices env).1,
       release_fetch_lock (acquire_fetch_lock s).2,
       if env.liveRaises then [] else (fetch_limited_live_prices env).2) := by
  unfold fetch_bulk_prices_safe
  rw [if_neg h1]
  simp only [h2]
  rw [if_neg (by decide : ¬(true = false))]
  by_cases hr : env.liveRaises = true <;> simp [hr]

theorem acquire_free_eq {s : Store} (hr : s.reachable = true)
    (hl : s.lock = false) :
    acquire_fetch_lock s = (true, { s with lock := true }) := by
  unfold acquire_fetch_lock
  rw [hr, hl]
  rfl

theorem acquire_held_eq {s : Store} (hr : s.reachable = true)
    (hl : s.lock = true) : acquire_fetch_lock s = (false, s) := by
  unfold acquire_fetch_lock
  rw [hr, hl]
  rfl

theorem release_eq {s : Store} (hr : s.reachable = true) :
    release_fetch_lock s = { s with lock := false } := by
  unfold release_fetch_lock
  rw [hr]
  rfl

theorem get_prices_effects (s : Store) (now : ℤ) (tickers : List Sym) :
    (get_prices s now tickers).2 = [] ∨
    (get_prices s now tickers).2 = [Effect.enqueueRefresh] := by
  simp only [get_prices]
  by_cases ht : truthyPrices (get_cached_prices s now) = true
  · rw [if_pos ht]
    exact Or.inl rfl
  · rw [if_neg ht]
    exact Or.inr rfl

theorem get_prices_calls_mem (calls : List (Store × ℤ × List Sym)) :
    ∀ e ∈ get_prices_calls calls, e = Effect.enqueueRefresh := by
  unfold get_prices_calls
  suffices h : ∀ acc : List Effect, (∀ e ∈ acc, e = Effect.enqueueRefresh) →
      ∀ e ∈ calls.foldl
        (fun acc c => acc ++ (get_prices c.1 c.2.1 c.2.2).2) acc,
        e = Effect.enqueueRefresh by
    exact h [] (by intro e he; cases he)
  induction calls with
  | nil => intro acc ha; exact ha
  | cons c t ih =>
    intro acc ha
    simp only [List.foldl_cons]
    apply ih
    intro e he
    rcases List.mem_append.1 he with he' | he'
    · exact ha e he'
    · rcases get_prices_effects c.1 c.2.1 c.2.2 with h0 | h0 <;> rw [h0] at he'
      · cases he'
      · simpa using he'

/-! ## Claim theorems -/

/-- C1: for every list of input symbols (known or unknown, any casing) and
every cache-store state whose snapshot (when readable) carries only
positive prices, `get_prices` returns — it is a total function of the
embedding — a mapping with exactly one entry per input symbol (the key set
is exactly the input set, without duplicates) whose values are all
strictly positive; in particular the result is non-empty whenever the
input is. -/
theorem c1_get_prices_total (s : Store) (now : ℤ) (tickers : List Sym)
    (hc : ∀ cp, get_cached_prices s now = some cp → ∀ q ∈ cp, 0 < q.2) :
    (dictKeys (get_prices s now tickers).1).Nodup ∧
    (∀ t, t ∈ dictKeys (get_prices s now tickers).1 ↔ t ∈ tickers) ∧
    (∀ q ∈ (get_prices s now tickers).1, 0 < q.2) ∧
    (tickers ≠ [] → (get_prices s now tickers).1 ≠ []) := by
  simp only [get_prices]
  by_cases ht : truthyPrices (get_cached_prices s now) = true
  · rw [if_pos ht]
    have hpos : ∀ t : Sym,
        0 < ((dictGet ((get_cached_prices s now).getD []) t.toUpper).getD
          (fallbackGet t.toUpper)) := by
      intro t
      cases hg : dictGet ((get_cached_prices s now).getD []) t.toUpper with
      | none => simp [fallbackGet_pos]
      | some v =>
        have hmem := dictGet_mem hg
        cases hcp : get_cached_prices s now with
        | none =>
          rw [hcp] at hmem
          cases hmem
        | some cp =>
          rw [hcp] at hmem
          simp only [Option.getD_some] at hmem
          simpa using hc cp hcp _ hmem
    refine ⟨nodup_dictKeys_pyDict _ _, fun t => mem_dictKeys_pyDict _ _ t,
      ?_, fun hne => pyDict_ne_nil _ hne⟩
    intro q hq
    have h' := mem_pyDict _ _ hq
    rw [h'.2]
    exact hpos q.1
  · rw [if_neg ht]
    refine ⟨nodup_dictKeys_pyDict _ _, fun t => mem_dictKeys_pyDict _ _ t,
      ?_, fun hne => pyDict_ne_nil _ hne⟩
    intro q hq
    have h' := mem_pyDict _ _ hq
    rw [h'.2]
    exact fallbackGet_pos _

/-- Witness for C1: a concrete call with the cache store unreachable, one
lowercase known symbol and one unknown symbol. -/
theorem c1_witness :
    (dictKeys (get_prices ⟨false, none, none, false⟩ 0
      ["aapl", "ZZZZ"]).1).Nodup ∧
    (∀ t, t ∈ dictKeys (get_prices ⟨false, none, none, false⟩ 0
      ["aapl", "ZZZZ"]).1 ↔ t ∈ ["aapl", "ZZZZ"]) ∧
    (∀ q ∈ (get_prices ⟨false, none, none, false⟩ 0 ["aapl", "ZZZZ"]).1,
      0 < q.2) ∧
    ((["aapl", "ZZZZ"] : List Sym) ≠ [] →
      (get_prices ⟨false, none, none, false⟩ 0 ["aapl", "ZZZZ"]).1 ≠ []) :=
  c1_get_prices_total ⟨false, none, none, false⟩ 0 ["aapl", "ZZZZ"]
    (fun cp h => by simp [get_cached_prices] at h)

/-- C2: `get_prices` never performs a live provider call — over any finite
sequence of calls, in any store states, the only effects ever emitted are
fire-and-forget background-refresh enqueues, and the number of live
fetches in the combined trace is zero. -/
theorem c2_get_prices_no_live_fetch (calls : List (Store × ℤ × List Sym)) :
    countLiveFetch (get_prices_calls calls) = 0 ∧
    ∀ e ∈ get_prices_calls calls, e = Effect.enqueueRefresh := by
  refine ⟨?_, get_prices_calls_mem calls⟩
  unfold countLiveFetch
  rw [List.countP_eq_zero]
  intro e he
  rw [get_prices_calls_mem calls e he]
  simp

/-- C10: `warm_cache` calls the method `fetch_bulk_prices`, which class
`BulkPriceService` does not define, so every invocation raises
`AttributeError`, the handler swallows it and the call returns `False`
with the store (in particular the cached snapshot) unchanged. -/
theorem c10_warm_cache_always_false (s : Store) :
    warm_cache s = (false, s) ∧
    "fetch_bulk_prices" ∉ bulkPriceServiceMethods := by
  constructor
  · unfold warm_cache
    rw [if_neg
      (by decide :
        ¬(bulkPriceServiceMethods.contains "fetch_bulk_prices" = true))]
  · decide

/-- C4: whenever the refresh body genuinely acquires the distributed lock
(store reachable, lock free, and the early cached-return is not taken),
the lock is held during the fetch and is released on every exit path —
for every environment, including one whose live-fetch step raises — so
that a subsequent acquire succeeds immediately. -/
theorem c4_lock_released (env : LiveEnv) (s : Store) (now : ℤ)
    (hr : s.reachable = true) (hl : s.lock = false)
    (hpath : should_fetch_bulk_data s now = true ∨
      truthyPrices (get_cached_prices s now) = false) :
    (acquire_fetch_lock s).1 = true ∧
    (acquire_fetch_lock s).2.lock = true ∧
    (fetch_bulk_prices_safe env s now).2.1.lock = false ∧
    (acquire_fetch_lock (fetch_bulk_prices_safe env s now).2.1).1 = true := by
  have hacq := acquire_free_eq hr hl
  have h1 : ¬(should_fetch_bulk_data s now = false ∧
      truthyPrices (get_cached_prices s now) = true) := by
    rcases hpath with h | h
    · intro hcon; rw [h] at hcon; cases hcon.1
    · intro hcon; rw [h] at hcon; cases hcon.2
  have h2 : (acquire_fetch_lock s).1 = true := by rw [hacq]
  have hshape := fetch_path_eq env s now h1 h2
  have hstore : (fetch_bulk_prices_safe env s now).2.1 =
      { s with lock := false } := by
    rw [hshape]
    simp only
    rw [hacq]
    rw [release_eq (show ({ s with lock := true } : Store).reachable = true
      from hr)]
  refine ⟨h2, by rw [hacq], by rw [hstore], ?_⟩
  rw [hstore]
  rw [acquire_free_eq
    (show ({ s with lock := false } : Store).reachable = true from hr) rfl]

/-- Witness for C4: concrete reachable store with a free lock and a
live-fetch step that raises. -/
theorem c4_witness :
    (acquire_fetch_lock ⟨true, none, none, false⟩).1 = true ∧
    (acquire_fetch_lock ⟨true, none, none, false⟩).2.lock = true ∧
    (fetch_bulk_prices_safe ⟨true, fun _ => AVOutcome.exn, true⟩
      ⟨true, none, none, false⟩ 0).2.1.lock = false ∧
    (acquire_fetch_lock (fetch_bulk_prices_safe
      ⟨true, fun _ => AVOutcome.exn, true⟩
      ⟨true, none, none, false⟩ 0).2.1).1 = true :=
  c4_lock_released ⟨true, fun _ => AVOutcome.exn, true⟩
    ⟨true, none, none, false⟩ 0 rfl rfl (Or.inl (by decide))

/-- C6: when another process holds the lock (store reachable, lock key
set), the refresh body returns immediately with the cached snapshot if a
truthy one exists, else the fallback-only dict over all tracked symbols;
the store is unchanged and no live fetch is performed. -/
theorem c6_lock_unavailable (env : LiveEnv) (s : Store) (now : ℤ)
    (hr : s.reachable = true) (hl : s.lock = true) :
    fetch_bulk_prices_safe env s now =
      ((if truthyPrices (get_cached_prices s now) = true
        then (get_cached_prices s now).getD [] else fallbackAllAssets),
       s, []) ∧
    countLiveFetch (fetch_bulk_prices_safe env s now).2.2 = 0 := by
  have hsf : should_fetch_bulk_data s now = false := by
    unfold should_fetch_bulk_data
    rw [hr, hl]
    rfl
  have hacq := acquire_held_eq hr hl
  by_cases ht : truthyPrices (get_cached_prices s now) = true
  · have heq := fetch_cached_eq env s now hsf ht
    rw [heq]
    simp [ht, countLiveFetch]
  · have h1 : ¬(should_fetch_bulk_data s now = false ∧
        truthyPrices (get_cached_prices s now) = true) :=
      fun hcon => ht hcon.2
    have heq := fetch_lockfail_eq env s now h1 (by rw [hacq])
    rw [heq, hacq]
    simp [ht, countLiveFetch]

/-- Witness for C6: concrete reachable store whose lock key is set. -/
theorem c6_witness :
    fetch_bulk_prices_safe ⟨true, fun _ => AVOutcome.exn, false⟩
      ⟨true, none, none, true⟩ 0 =
      ((if truthyPrices (get_cached_prices ⟨true, none, none, true⟩ 0) = true
        then (get_cached_prices ⟨true, none, none, true⟩ 0).getD []
        else fallbackAllAssets),
       ⟨true, none, none, true⟩, []) ∧
    countLiveFetch (fetch_bulk_prices_safe
      ⟨true, fun _ => AVOutcome.exn, false⟩
      ⟨true, none, none, true⟩ 0).2.2 = 0 :=
  c6_lock_unavailable ⟨true, fun _ => AVOutcome.exn, false⟩
    ⟨true, none, none, true⟩ 0 rfl rfl

/-- C8 (amended): when the store is reachable, `acquire_fetch_lock`
returns true iff the lock was free, in which case the caller now holds
it; if the lock is already held it reports false.  (When the store cannot
be consulted the method instead proceeds fail-open — see the
counterexample.) -/
theorem c8_acquire_iff_holds (s : Store) (hr : s.reachable = true) :
    ((acquire_fetch_lock s).1 = true ↔
      (s.lock = false ∧ (acquire_fetch_lock s).2.lock = true)) ∧
    (s.lock = true → (acquire_fetch_lock s).1 = false) := by
  by_cases hl : s.lock = true
  · rw [acquire_held_eq hr hl]
    constructor
    · constructor
      · intro h
        cases h
      · rintro ⟨h, _⟩
        rw [hl] at h
        cases h
    · intro _
      rfl
  · have hl' : s.lock = false := by
      cases h : s.lock
      · rfl
      · exact absurd h hl
    rw [acquire_free_eq hr hl']
    exact ⟨⟨fun _ => ⟨hl', rfl⟩, fun _ => rfl⟩, fun hcon => absurd hcon hl⟩

/-- C8 counterexample: with the store unreachable (it cannot be
consulted), `acquire_fetch_lock` still reports acquisition (`True`) while
no lock is held anywhere — refuting "returns true iff the caller now
holds the lock" and "never reports acquisition when the shared store
could not be consulted". -/
theorem c8_counterexample :
    acquire_fetch_lock ⟨false, none, none, false⟩ =
      (true, ⟨false, none, none, false⟩) ∧
    (⟨false, none, none, false⟩ : Store).lock = false ∧
    (⟨false, none, none, false⟩ : Store).reachable = false := by
  refine ⟨by decide, rfl, rfl⟩

/-- Witness for C8: a concrete reachable store whose lock is held. -/
theorem c8_witness :
    ((acquire_fetch_lock ⟨true, none, none, true⟩).1 = true ↔
      ((⟨true, none, none, true⟩ : Store).lock = false ∧
        (acquire_fetch_lock ⟨true, none, none, true⟩).2.lock = true)) ∧
    ((⟨true, none, none, true⟩ : Store).lock = true →
      (acquire_fetch_lock ⟨true, none, none, true⟩).1 = false) :=
  c8_acquire_iff_holds ⟨true, none, none, true⟩ rfl

theorem acquire_fail_eq {s : Store} (h : (acquire_fetch_lock s).1 = false) :
    acquire_fetch_lock s = (false, s) := by
  cases hr : s.reachable with
  | false =>
    exfalso
    unfold acquire_fetch_lock at h
    rw [hr] at h
    cases h
  | true =>
    cases hl : s.lock with
    | false =>
      exfalso
      rw [acquire_free_eq hr hl] at h
      cases h
    | true => exact acquire_held_eq hr hl

theorem fetch_lockfail_eq' (env : LiveEnv) (s : Store) (now : ℤ)
    (h1 : ¬(should_fetch_bulk_data s now = false ∧
      truthyPrices (get_cached_prices s now) = true))
    (h2 : (acquire_fetch_lock s).1 = false) :
    fetch_bulk_prices_safe env s now =
      (if truthyPrices (get_cached_prices s now) = true
       then (get_cached_prices s now).getD []
       else fallbackAllAssets, s, []) := by
  rw [fetch_lockfail_eq env s now h1 h2, acquire_fail_eq h2]

/-- C3 (amended): when every live adapter is disabled or fails — the
guarded block raises, no provider key is configured, or every per-symbol
quote attempt yields no price — the refresh body's snapshot is exactly
the baseline dict `{asset: fallback_prices.get(asset, 100.0) for asset in
all_assets}`: its key set is exactly the tracked symbol set, it agrees
with the fallback table on every tracked symbol that has a fallback
entry, maps every other tracked symbol to the default 100.0, and is
non-empty. -/
theorem c3_total_failure_fallback (env : LiveEnv) (s : Store) (now : ℤ)
    (hpath : ¬(should_fetch_bulk_data s now = false ∧
      truthyPrices (get_cached_prices s now) = true))
    (hacq : (acquire_fetch_lock s).1 = true)
    (hfail : env.liveRaises = true ∨ env.avKey = false ∨
      ∀ a, get_alpha_vantage_price_safe (env.avOutcome a) = none) :
    (fetch_bulk_prices_safe env s now).1 = fallbackAllAssets ∧
    dictKeys (fetch_bulk_prices_safe env s now).1 = all_assets ∧
    (∀ a ∈ all_assets,
      dictGet (fetch_bulk_prices_safe env s now).1 a =
        some (fallbackGet a)) ∧
    (∀ q ∈ fallback_prices, q.1 ∈ all_assets →
      dictGet (fetch_bulk_prices_safe env s now).1 q.1 = some q.2) ∧
    (fetch_bulk_prices_safe env s now).1 ≠ [] := by
  have hshape := fetch_path_eq env s now hpath hacq
  have hres : (fetch_bulk_prices_safe env s now).1 = fallbackAllAssets := by
    rw [hshape]
    by_cases hlr : env.liveRaises = true
    · simp [hlr]
    · simp only [hlr, Bool.false_eq_true, if_false]
      by_cases he : (fetch_limited_live_prices env).1.isEmpty = true
      · simp [he]
      · simp only [he, Bool.false_eq_true, if_false]
        have hf : env.avKey = false ∨
            ∀ a, get_alpha_vantage_price_safe (env.avOutcome a) = none := by
          rcases hfail with h | h
          · exact absurd h hlr
          · exact h
        show dictUpdate fallbackAllAssets (fetch_limited_live_prices env).1 =
          fallbackAllAssets
        apply dictUpdate_self
        intro q hq
        have hq' := fetch_limited_fallback_only env hf q hq
        constructor
        · exact ⟨(q.1, fallbackGet q.1),
            List.mem_map.2 ⟨q.1, fetch_assets_subset _ hq'.2, rfl⟩, rfl⟩
        · intro r hr hk
          rcases mem_fallbackAllAssets hr with ⟨_, hv⟩
          rw [hv, hk, hq'.1]
  refine ⟨hres, ?_, ?_, ?_, ?_⟩
  · rw [hres, dictKeys_fallbackAllAssets]
  · intro a ha
    rw [hres]
    exact dictGet_fallbackAllAssets ha
  · intro q hq ha
    rw [hres, dictGet_fallbackAllAssets ha]
    have : fallbackGet q.1 = q.2 := by
      unfold fallbackGet
      rw [dictGet_of_nodup_mem fallback_prices_keys_nodup
        (show (q.1, q.2) ∈ fallback_prices from hq)]
      rfl
    rw [this]
  · rw [hres]
    exact fallbackAllAssets_ne_nil

/-- C3 counterexample: the symbol `GOOG` is tracked but has no entry in
the fallback table; on a total-failure refresh (adapters disabled, store
unreachable) the produced snapshot maps `GOOG` to the default 100.0,
while the fallback table restricted to the tracked set has no entry for
it — so the snapshot does not equal that restriction (different key
sets), refuting the claim as stated. -/
theorem c3_counterexample :
    "GOOG" ∈ all_assets ∧
    dictGet (fetch_bulk_prices_safe ⟨false, fun _ => AVOutcome.exn, false⟩
      ⟨false, none, none, false⟩ 0).1 "GOOG" = some 100 ∧
    dictGet (fallback_prices.filter (fun q => all_assets.contains q.1))
      "GOOG" = none :=
  ⟨by decide, by decide, by decide⟩

/-- Witness for C3 (amended): a concrete refresh with the store
unreachable and the Alpha Vantage key not configured. -/
theorem c3_witness :
    (fetch_bulk_prices_safe ⟨false, fun _ => AVOutcome.exn, false⟩
      ⟨false, none, none, false⟩ 0).1 = fallbackAllAssets ∧
    dictKeys (fetch_bulk_prices_safe ⟨false, fun _ => AVOutcome.exn, false⟩
      ⟨false, none, none, false⟩ 0).1 = all_assets ∧
    (∀ a ∈ all_assets,
      dictGet (fetch_bulk_prices_safe ⟨false, fun _ => AVOutcome.exn, false⟩
        ⟨false, none, none, false⟩ 0).1 a = some (fallbackGet a)) ∧
    (∀ q ∈ fallback_prices, q.1 ∈ all_assets →
      dictGet (fetch_bulk_prices_safe ⟨false, fun _ => AVOutcome.exn, false⟩
        ⟨false, none, none, false⟩ 0).1 q.1 = some q.2) ∧
    (fetch_bulk_prices_safe ⟨false, fun _ => AVOutcome.exn, false⟩
      ⟨false, none, none, false⟩ 0).1 ≠ [] :=
  c3_total_failure_fallback ⟨false, fun _ => AVOutcome.exn, false⟩
    ⟨false, none, none, false⟩ 0 (by decide) (by decide)
    (Or.inr (Or.inl rfl))

/-- C7: assuming the cached snapshot (when one is returned) satisfies the
snapshot invariant — which clauses below show every constructed snapshot
does — the refresh body's result satisfies it too: every key is an
uppercase symbol of the tracked set and every value is strictly positive;
moreover both adapters only ever emit strictly positive prices (a symbol
with no valid price is absent from their partial result, never zero). -/
theorem c7_snapshot_invariant (env : LiveEnv) (s : Store) (now : ℤ)
    (hc : ∀ cp, get_cached_prices s now = some cp → snapshotInvariant cp) :
    snapshotInvariant (fetch_bulk_prices_safe env s now).1 ∧
    (∀ envA : Sym → AVOutcome,
      ∀ q ∈ (fetch_alpha_vantage_limited envA fetch_assets).1, 0 < q.2) ∧
    (∀ (envY : Sym → YFOutcome) (ts : List Sym),
      ∀ q ∈ fetch_yfinance_chunk_safe envY ts, 0 < q.2) := by
  refine ⟨?_, fun envA q hq => (mem_av_limited envA fetch_assets hq).2,
    fun envY ts q hq => (mem_yf_chunk envY ts hq).2⟩
  by_cases hp1 : should_fetch_bulk_data s now = false ∧
      truthyPrices (get_cached_prices s now) = true
  · rw [fetch_cached_eq env s now hp1.1 hp1.2]
    cases hcp : get_cached_prices s now with
    | none =>
      have ht := hp1.2
      rw [hcp] at ht
      cases ht
    | some cp =>
      simp only [hcp, Option.getD_some]
      exact hc cp hcp
  · by_cases hacq : (acquire_fetch_lock s).1 = true
    · rw [fetch_path_eq env s now hp1 hacq]
      by_cases hlr : env.liveRaises = true
      · simp only [hlr, if_true]
        exact fallbackAllAssets_invariant
      · simp only [hlr, Bool.false_eq_true, if_false]
        by_cases he : (fetch_limited_live_prices env).1.isEmpty = true
        · simp only [he, if_true]
          exact fallbackAllAssets_invariant
        · simp only [he, Bool.false_eq_true, if_false]
          intro q hq
          rcases mem_dictUpdate hq with hqb | hql
          · exact fallbackAllAssets_invariant q hqb
          · have h' := mem_fetch_limited env q hql
            have ha := fetch_assets_subset _ h'.1
            exact ⟨all_assets_upper _ ha, ha, h'.2⟩
    · have hacq' : (acquire_fetch_lock s).1 = false := by
        cases h : (acquire_fetch_lock s).1
        · rfl
        · exact absurd h hacq
      rw [fetch_lockfail_eq' env s now hp1 hacq']
      by_cases ht : truthyPrices (get_cached_prices s now) = true
      · simp only [ht, if_true]
        cases hcp : get_cached_prices s now with
        | none =>
          rw [hcp] at ht
          cases ht
        | some cp =>
          simp only [hcp, Option.getD_some]
          exact hc cp hcp
      · simp only [ht, if_false]
        exact fallbackAllAssets_invariant

/-- Witness for C7: a concrete refresh against an unreachable store (no
cached snapshot), with the provider key configured and the provider
answering with its rate-limit response everywhere. -/
theorem c7_witness :
    snapshotInvariant (fetch_bulk_prices_safe
      ⟨true, fun _ => AVOutcome.rateLimitNote, false⟩
      ⟨false, none, none, false⟩ 0).1 ∧
    (∀ envA : Sym → AVOutcome,
      ∀ q ∈ (fetch_alpha_vantage_limited envA fetch_assets).1, 0 < q.2) ∧
    (∀ (envY : Sym → YFOutcome) (ts : List Sym),
      ∀ q ∈ fetch_yfinance_chunk_safe envY ts, 0 < q.2) :=
  c7_snapshot_invariant ⟨true, fun _ => AVOutcome.rateLimitNote, false⟩
    ⟨false, none, none, false⟩ 0
    (fun cp h => by simp [get_cached_prices] at h)

/-- C9: every provider error (HTTP non-200, malformed JSON, the
rate-limit "Note" response, an "Error Message", a missing or non-numeric
or non-positive price, a per-symbol exception) yields no price, so the
affected symbol is omitted from the adapter's partial result (for both
adapters); and the refresh body nevertheless always returns a snapshot
containing every tracked symbol (given that a cached snapshot, when
returned, is complete). -/
theorem c9_provider_errors_contained (env : LiveEnv)
    (envY : Sym → YFOutcome) (s : Store) (now : ℤ) (ts : List Sym)
    (hc : ∀ cp, get_cached_prices s now = some cp →
      ∀ a ∈ all_assets, a ∈ dictKeys cp) :
    (∀ c, get_alpha_vantage_price_safe (AVOutcome.httpError c) = none) ∧
    get_alpha_vantage_price_safe AVOutcome.badJson = none ∧
    get_alpha_vantage_price_safe AVOutcome.rateLimitNote = none ∧
    get_alpha_vantage_price_safe AVOutcome.errorMessage = none ∧
    get_alpha_vantage_price_safe AVOutcome.noGlobalQuote = none ∧
    get_alpha_vantage_price_safe AVOutcome.priceMissing = none ∧
    get_alpha_vantage_price_safe AVOutcome.priceNotNumeric = none ∧
    get_alpha_vantage_price_safe AVOutcome.exn = none ∧
    (∀ p : Price, p ≤ 0 →
      get_alpha_vantage_price_safe (AVOutcome.price p) = none) ∧
    (∀ a, get_alpha_vantage_price_safe (env.avOutcome a) = none →
      a ∉ dictKeys (fetch_alpha_vantage_limited env.avOutcome
        fetch_assets).1) ∧
    (∀ a, yfTickerPrice (envY a) = none →
      a ∉ dictKeys (fetch_yfinance_chunk_safe envY ts)) ∧
    (∀ a ∈ all_assets, a ∈ dictKeys (fetch_bulk_prices_safe env s now).1) := by
  refine ⟨fun c => rfl, rfl, rfl, rfl, rfl, rfl, rfl, rfl, ?_, ?_, ?_, ?_⟩
  · intro p hp
    simp [get_alpha_vantage_price_safe, not_lt.2 hp]
  · intro a hnone hmem
    rw [keys_av_limited] at hmem
    rw [hnone] at hmem
    simp at hmem
  · intro a hnone hmem
    rw [keys_yf_chunk] at hmem
    rw [hnone] at hmem
    simp at hmem
  · intro a ha
    by_cases hp1 : should_fetch_bulk_data s now = false ∧
        truthyPrices (get_cached_prices s now) = true
    · rw [fetch_cached_eq env s now hp1.1 hp1.2]
      cases hcp : get_cached_prices s now with
      | none =>
        have ht := hp1.2
        rw [hcp] at ht
        cases ht
      | some cp =>
        simp only [hcp, Option.getD_some]
        exact hc cp hcp a ha
    · by_cases hacq : (acquire_fetch_lock s).1 = true
      · rw [fetch_path_eq env s now hp1 hacq]
        by_cases hlr : env.liveRaises = true
        · simp only [hlr, if_true]
          rw [dictKeys_fallbackAllAssets]
          exact ha
        · simp only [hlr, Bool.false_eq_true, if_false]
          by_cases he : (fetch_limited_live_prices env).1.isEmpty = true
          · simp only [he, if_true]
            rw [dictKeys_fallbackAllAssets]
            exact ha
          · simp only [he, Bool.false_eq_true, if_false]
            exact mem_dictKeys_dictUpdate.2
              (Or.inl (by rw [dictKeys_fallbackAllAssets]; exact ha))
      · have hacq' : (acquire_fetch_lock s).1 = false := by
          cases h : (acquire_fetch_lock s).1
          · rfl
          · exact absurd h hacq
        rw [fetch_lockfail_eq' env s now hp1 hacq']
        by_cases ht : truthyPrices (get_cached_prices s now) = true
        · simp only [ht, if_true]
          cases hcp : get_cached_prices s now with
          | none =>
            rw [hcp] at ht
            cases ht
          | some cp =>
            simp only [hcp, Option.getD_some]
            exact hc cp hcp a ha
        · rw [if_neg ht, dictKeys_fallbackAllAssets]
          exact ha

/-- Witness for C9: concrete environments in which every Alpha Vantage
call hits the rate limit and every yfinance ticker has no data, against
an unreachable store. -/
theorem c9_witness :
    (∀ c, get_alpha_vantage_price_safe (AVOutcome.httpError c) = none) ∧
    get_alpha_vantage_price_safe AVOutcome.badJson = none ∧
    get_alpha_vantage_price_safe AVOutcome.rateLimitNote = none ∧
    get_alpha_vantage_price_safe AVOutcome.errorMessage = none ∧
    get_alpha_vantage_price_safe AVOutcome.noGlobalQuote = none ∧
    get_alpha_vantage_price_safe AVOutcome.priceMissing = none ∧
    get_alpha_vantage_price_safe AVOutcome.priceNotNumeric = none ∧
    get_alpha_vantage_price_safe AVOutcome.exn = none ∧
    (∀ p : Price, p ≤ 0 →
      get_alpha_vantage_price_safe (AVOutcome.price p) = none) ∧
    (∀ a, get_alpha_vantage_price_safe
        ((⟨true, fun _ => AVOutcome.rateLimitNote, false⟩ :
          LiveEnv).avOutcome a) = none →
      a ∉ dictKeys (fetch_alpha_vantage_limited
        (⟨true, fun _ => AVOutcome.rateLimitNote, false⟩ :
          LiveEnv).avOutcome fetch_assets).1) ∧
    (∀ a, yfTickerPrice ((fun _ => YFOutcome.noData) a) = none →
      a ∉ dictKeys (fetch_yfinance_chunk_safe
        (fun _ => YFOutcome.noData) ["AAPL"])) ∧
    (∀ a ∈ all_assets, a ∈ dictKeys (fetch_bulk_prices_safe
      ⟨true, fun _ => AVOutcome.rateLimitNote, false⟩
      ⟨false, none, none, false⟩ 0).1) :=
  c9_provider_errors_contained
    ⟨true, fun _ => AVOutcome.rateLimitNote, false⟩
    (fun _ => YFOutcome.noData) ⟨false, none, none, false⟩ 0 ["AAPL"]
    (fun cp h => by simp [get_cached_prices] at h)

theorem fetch_result_ne_nil (env : LiveEnv) (s : Store) (now : ℤ)
    (hpath : ¬(should_fetch_bulk_data s now = false ∧
      truthyPrices (get_cached_prices s now) = true))
    (hacq : (acquire_fetch_lock s).1 = true) :
    (fetch_bulk_prices_safe env s now).1 ≠ [] := by
  rw [fetch_path_eq env s now hpath hacq]
  by_cases hlr : env.liveRaises = true
  · simp only [hlr, if_true]
    exact fallbackAllAssets_ne_nil
  · simp only [hlr, Bool.false_eq_true, if_false]
    by_cases he : (fetch_limited_live_prices env).1.isEmpty = true
    · simp only [he, if_true]
      exact fallbackAllAssets_ne_nil
    · simp only [he, Bool.false_eq_true, if_false]
      exact dictUpdate_ne_nil _ fallbackAllAssets_ne_nil

theorem refresh_fst (env : LiveEnv) (s : Store) (now : ℤ) :
    (refresh env s now).1 = (fetch_bulk_prices_safe env s now).1 := by
  simp [refresh]

theorem refresh_eff (env : LiveEnv) (s : Store) (now : ℤ) :
    (refresh env s now).2.2 = (fetch_bulk_prices_safe env s now).2.2 := by
  simp [refresh]

/-- C5: (a) when a refresh is not due and a truthy snapshot is cached, the
refresh body is a no-op — it returns the cached snapshot with the store
unchanged and an empty effect trace; (b) hence, for the scheduler
entrypoint (fetch then persist), a second refresh within one refresh
interval of the first returns the very same snapshot and performs zero
live fetches. -/
theorem c5_staleness_skip :
    (∀ (env : LiveEnv) (s : Store) (now : ℤ),
      should_fetch_bulk_data s now = false →
      truthyPrices (get_cached_prices s now) = true →
      fetch_bulk_prices_safe env s now =
        ((get_cached_prices s now).getD [], s, [])) ∧
    (∀ (env1 env2 : LiveEnv) (s : Store) (t0 t1 : ℤ),
      s.reachable = true → s.lock = false →
      should_fetch_bulk_data s t0 = true →
      0 ≤ t1 - t0 → t1 - t0 ≤ bulk_fetch_interval →
      (refresh env2 (refresh env1 s t0).2.1 t1).1 = (refresh env1 s t0).1 ∧
      countLiveFetch (refresh env2 (refresh env1 s t0).2.1 t1).2.2 = 0) := by
  constructor
  · exact fun env s now h1 h2 => fetch_cached_eq env s now h1 h2
  · intro env1 env2 s t0 t1 hr hl hdue h0 h1
    have hpath : ¬(should_fetch_bulk_data s t0 = false ∧
        truthyPrices (get_cached_prices s t0) = true) := by
      intro hcon
      rw [hdue] at hcon
      cases hcon.1
    have hacq : (acquire_fetch_lock s).1 = true := by
      rw [acquire_free_eq hr hl]
    have hstore1 : (fetch_bulk_prices_safe env1 s t0).2.1 =
        { s with lock := false } := by
      rw [fetch_path_eq env1 s t0 hpath hacq]
      simp only
      rw [acquire_free_eq hr hl]
      rw [release_eq
        (show ({ s with lock := true } : Store).reachable = true from hr)]
    have hne := fetch_result_ne_nil env1 s t0 hpath hacq
    have hs2 : (refresh env1 s t0).2.1 =
        { reachable := true,
          snapshot := some ⟨(fetch_bulk_prices_safe env1 s t0).1, t0,
            (fetch_bulk_prices_safe env1 s t0).1.length⟩,
          lastFetch := some t0, lock := false } := by
      simp only [refresh]
      rw [hstore1]
      unfold cache_bulk_prices
      have hrr : ({ s with lock := false } : Store).reachable = true := hr
      simp only [hrr, Bool.not_true, Bool.false_eq_true, if_false]
      cases s
      simp_all
    have hsf2 : should_fetch_bulk_data (refresh env1 s t0).2.1 t1 = false := by
      rw [hs2]
      simp only [should_fetch_bulk_data, Bool.not_true, Bool.false_eq_true,
        if_false]
      rw [decide_eq_false_iff_not]
      exact not_lt.2 h1
    have hcache2 : get_cached_prices (refresh env1 s t0).2.1 t1 =
        some (fetch_bulk_prices_safe env1 s t0).1 := by
      rw [hs2]
      simp only [get_cached_prices, Bool.not_true, Bool.false_eq_true,
        if_false]
      have hage : ¬(cache_ttl < t1 - t0) := by
        unfold cache_ttl
        unfold bulk_fetch_interval at h1
        omega
      simp [hage]
    have htr2 : truthyPrices
        (get_cached_prices (refresh env1 s t0).2.1 t1) = true := by
      rw [hcache2]
      have hie : (fetch_bulk_prices_safe env1 s t0).1.isEmpty = false := by
        cases hpe : (fetch_bulk_prices_safe env1 s t0).1.isEmpty
        · rfl
        · exact absurd (List.isEmpty_iff.1 hpe) hne
      simp [truthyPrices, hie]
    have hfinal := fetch_cached_eq env2 (refresh env1 s t0).2.1 t1 hsf2 htr2
    constructor
    · rw [refresh_fst, refresh_fst, hfinal]
      simp only [hcache2, Option.getD_some]
    · rw [refresh_eff, hfinal]
      rfl

/-- Witness for C5: part (a) at a store holding a fresh snapshot fetched
at the same instant; part (b) at a never-fetched reachable store with
disabled adapters and two refresh calls at the same instant. -/
theorem c5_witness :
    (fetch_bulk_prices_safe ⟨false, fun _ => AVOutcome.exn, false⟩
      ⟨true, some ⟨[("AAPL", 100)], 0, 1⟩, some 0, false⟩ 0 =
      ((get_cached_prices
        ⟨true, some ⟨[("AAPL", 100)], 0, 1⟩, some 0, false⟩ 0).getD [],
       ⟨true, some ⟨[("AAPL", 100)], 0, 1⟩, some 0, false⟩, [])) ∧
    ((refresh ⟨false, fun _ => AVOutcome.exn, false⟩
        (refresh ⟨false, fun _ => AVOutcome.exn, false⟩
          ⟨true, none, none, false⟩ 0).2.1 0).1 =
      (refresh ⟨false, fun _ => AVOutcome.exn, false⟩
        ⟨true, none, none, false⟩ 0).1 ∧
     countLiveFetch (refresh ⟨false, fun _ => AVOutcome.exn, false⟩
        (refresh ⟨false, fun _ => AVOutcome.exn, false⟩
          ⟨true, none, none, false⟩ 0).2.1 0).2.2 = 0) :=
  ⟨c5_staleness_skip.1 ⟨false, fun _ => AVOutcome.exn, false⟩
    ⟨true, some ⟨[("AAPL", 100)], 0, 1⟩, some 0, false⟩ 0
    (by decide) (by decide),
   c5_staleness_skip.2 ⟨false, fun _ => AVOutcome.exn, false⟩
    ⟨false, fun _ => AVOutcome.exn, false⟩ ⟨true, none, none, false⟩ 0 0
    rfl rfl (by decide) (by decide) (by decide)⟩

/-- Witness for C2: two concrete `get_prices` calls, one against an
unreachable store and one against a store with no snapshot. -/
theorem c2_witness :
    countLiveFetch (get_prices_calls
      [(⟨false, none, none, false⟩, 0, ["AAPL"]),
       (⟨true, none, none, false⟩, 0, ["msft", "ZZZZ"])]) = 0 ∧
    ∀ e ∈ get_prices_calls
      [(⟨false, none, none, false⟩, 0, ["AAPL"]),
       (⟨true, none, none, false⟩, 0, ["msft", "ZZZZ"])],
      e = Effect.enqueueRefresh :=
  c2_get_prices_no_live_fetch
    [(⟨false, none, none, false⟩, 0, ["AAPL"]),
     (⟨true, none, none, false⟩, 0, ["msft", "ZZZZ"])]

/-- Witness for C10: a concrete invocation against an unreachable store. -/
theorem c10_witness :
    warm_cache ⟨false, none, none, false⟩ =
      (false, ⟨false, none, none, false⟩) ∧
    "fetch_bulk_prices" ∉ bulkPriceServiceMethods :=
  c10_warm_cache_always_false ⟨false, none, none, false⟩

end StockWise